import Mathlib

/-!
Verification of the document-intelligence layer of the NovaAtom editor
(`src/code_editor.py`): the autocomplete candidate merge
(`CodeEditor.show_autocomplete` together with `_fetch_code_suggestions`),
the plugin loader (`CodeEditor._load_extensions`), the symbol navigator
(`CodeEditor.goto_definition`) and the autocomplete overlay lifecycle
(`CodeEditor._open_autocomplete_window`, `CodeEditor._insert_autocomplete`).

The embedding is shallow: Python strings are Lean `String`s, Python lists
are Lean `List`s, the mutable Tk widget state is passed explicitly as
records.  Python's regex classes are modelled over their ASCII fragment:
`\w` is `[A-Za-z0-9_]` and `\s` is the ASCII whitespace characters.
The remote completion provider is an input parameter: `_fetch_code_suggestions`
maps every failure (missing key, non-200 status, transport error) to the
empty suggestion list, so a remote outcome is simply the list of returned
suggestion lines (empty on any failure).
-/

namespace NovaAtom

/-- ASCII whitespace as recognised by Python's `str.strip` and the regex
class `\s`: space, tab, newline, carriage return, vertical tab, form feed. -/
def isPySpace (c : Char) : Bool :=
  decide (c = ' ' ∨ c = '\t' ∨ c = '\n' ∨ c = '\r' ∨ c = '\x0B' ∨ c = '\x0C')

/-- Word characters of the regex class `\w` (ASCII fragment):
letters, digits and underscore. -/
def isWordChar (c : Char) : Bool :=
  decide (('a' ≤ c ∧ c ≤ 'z') ∨ ('A' ≤ c ∧ c ≤ 'Z') ∨ ('0' ≤ c ∧ c ≤ '9') ∨ c = '_')

/-- `not s.strip()` in Python: the string contains only whitespace
(in particular the empty string is blank). -/
def isBlank (s : String) : Bool :=
  s.toList.all isPySpace

/-- Python `s.startswith(pfx)` (character-wise prefix test). -/
def pyStartswith (pfx s : String) : Bool :=
  pfx.toList.isPrefixOf s.toList

/-- Python `s[n:]`: drop the first `n` characters. -/
def pyDrop (s : String) (n : Nat) : String :=
  String.mk (s.toList.drop n)

/-- Helper for `findWords`: accumulates the current run of word characters
(in reverse) and emits it when a non-word character or the end is reached. -/
def wordsAux (acc : List Char) : List Char → List String
  | [] => if acc.isEmpty then [] else [String.mk acc.reverse]
  | c :: cs =>
    if isWordChar c then wordsAux (c :: acc) cs
    else if acc.isEmpty then wordsAux [] cs
    else String.mk acc.reverse :: wordsAux [] cs

/-- `re.findall(r"\b\w+\b", text)`: the maximal runs of word characters in
`text`, in order of occurrence. -/
def findWords (text : String) : List String :=
  wordsAux [] text.toList

/-- Lexicographic order on character lists by code point, the order Python's
`sorted` uses on strings. -/
def lexLe : List Char → List Char → Bool
  | [], _ => true
  | _ :: _, [] => false
  | a :: as, b :: bs =>
    if a.toNat < b.toNat then true
    else if b.toNat < a.toNat then false
    else lexLe as bs

/-- `a <= b` for Python strings: lexicographic ascending by code point. -/
def strLe (a b : String) : Bool :=
  lexLe a.toList b.toList

/-- Insertion of a string into a `strLe`-sorted list. -/
def insertSorted (s : String) : List String → List String
  | [] => [s]
  | t :: ts => if strLe s t then s :: t :: ts else t :: insertSorted s ts

/-- Python's `sorted` on a list of strings (insertion sort; the result is
determined by the order alone once the input has no duplicates). -/
def sortStrings : List String → List String
  | [] => []
  | s :: ss => insertSorted s (sortStrings ss)

/-- Python's `keyword.kwlist` (the language's reserved words). -/
def pythonKwlist : List String :=
  ["False", "None", "True", "and", "as", "assert", "async", "await",
   "break", "class", "continue", "def", "del", "elif", "else", "except",
   "finally", "for", "from", "global", "if", "import", "in", "is",
   "lambda", "nonlocal", "not", "or", "pass", "raise", "return",
   "while", "with", "yield"]

/-- The remote branch of `show_autocomplete`:
`[s for s in self._fetch_code_suggestions(prefix) if s.startswith(prefix)]`.
`remote` is the list returned by `_fetch_code_suggestions` (empty on any
failure of the provider). -/
def filteredRemote (pfx : String) (remote : List String) : List String :=
  remote.filter (fun s => pyStartswith pfx s)

/-- The local fallback of `show_autocomplete`: the set union of
`keyword.kwlist` and all word tokens of the buffer, filtered to proper
extensions of the prefix, sorted ascending
(`sorted({s for s in local_suggestions if s.startswith(prefix) and s != prefix})`). -/
def localCandidates (kwlist : List String) (bufferText pfx : String) : List String :=
  sortStrings
    (((kwlist ++ findWords bufferText).dedup).filter
      (fun s => pyStartswith pfx s && s != pfx))

/-- The CandidateSet computed by `show_autocomplete` for a non-blank prefix:
the filtered remote suggestions when there are any, otherwise the sorted
filtered local vocabulary. -/
def candidateSet (kwlist : List String) (bufferText : String)
    (remote : List String) (pfx : String) : List String :=
  let fr := filteredRemote pfx remote
  if fr.isEmpty then localCandidates kwlist bufferText pfx else fr

/-- The user-visible effect `show_autocomplete` decides on. -/
inductive AcOutcome where
  | noop : AcOutcome
  | insertText : String → AcOutcome
  | overlay : List String → AcOutcome
deriving DecidableEq, Repr

/-- `CodeEditor.show_autocomplete`: blank prefix is a no-op; an empty
CandidateSet is a no-op; a singleton CandidateSet inserts
`suggestions[0][len(prefix):]`; otherwise the overlay window is opened on
the full CandidateSet. -/
def showAutocomplete (kwlist : List String) (bufferText : String)
    (remote : List String) (pfx : String) : AcOutcome :=
  if isBlank pfx then .noop
  else
    match candidateSet kwlist bufferText remote pfx with
    | [] => .noop
    | [c] => .insertText (pyDrop c pfx.length)
    | c1 :: c2 :: rest => .overlay (c1 :: c2 :: rest)

/-- The text buffer around the cursor: `pre` is everything before the
insertion point, `post` everything after it.  `self.text.insert(tk.INSERT, s)`
appends `s` to `pre`. -/
structure Buf where
  pre : String
  post : String
deriving DecidableEq, Repr

/-- Applies an `AcOutcome` to the buffer; the boolean records whether an
overlay window was created. -/
def applyOutcome (b : Buf) : AcOutcome → Buf × Bool
  | .noop => (b, false)
  | .insertText s => ({ pre := b.pre ++ s, post := b.post }, false)
  | .overlay _ => (b, true)

/-- Regex `\b` immediately after a literal: the boundary between the last
character of the literal (`lastIsWord`) and the remaining input holds at
end of input iff the last character is a word character, and otherwise iff
exactly one of the two neighbouring characters is a word character. -/
def boundaryAfter (lastIsWord : Bool) : List Char → Bool
  | [] => lastIsWord
  | c :: _ => lastIsWord != isWordChar c

/-- Matches the escaped identifier `w` literally at the head of `cs`,
followed by a `\b` word boundary.  (`w` is the stripped cursor word, so it
never starts with whitespace.) -/
def matchWordBoundary (w : List Char) (cs : List Char) : Bool :=
  cs.take w.length == w &&
    boundaryAfter
      (match w.getLast? with
       | some c => isWordChar c
       | none => false)
      (cs.drop w.length)

/-- Matches `kw` literally at the head of `cs`, then `\s+`, then the
identifier `w` with a trailing `\b` (the body of the `goto_definition`
pattern after the leading `\s*`). -/
def matchKwThenWord (kw : List Char) (w : List Char) (cs : List Char) : Bool :=
  cs.take kw.length == kw &&
    (match cs.drop kw.length with
     | [] => false
     | c :: rest => isPySpace c && matchWordBoundary w ((c :: rest).dropWhile isPySpace))

/-- One line matches the `goto_definition` regex
`^\s*(def|class)\s+<word>\b` (anchored search, no MULTILINE): optional
leading whitespace, one of the definition keywords, mandatory whitespace,
then exactly the target identifier at a word boundary. -/
def defLineMatches (word line : String) : Bool :=
  let cs := line.toList.dropWhile isPySpace
  matchKwThenWord "def".toList word.toList cs ||
    matchKwThenWord "class".toList word.toList cs

/-- The line `goto_definition` jumps to: the 1-based number of the first
buffer line matching the definition pattern (`enumerate(lines, start=1)`
scanned in order, first match returned). -/
def findDefLine (word : String) (lines : List String) : Option Nat :=
  (lines.findIdx? (fun l => defLineMatches word l)).map (· + 1)

/-- The navigator-visible editor state: the buffer lines and the cursor
position (line, column). -/
structure NavState where
  lines : List String
  cursorLine : Nat
  cursorCol : Nat
deriving DecidableEq, Repr

/-- User-visible notices emitted by `goto_definition` via `messagebox`. -/
inductive NavNotice where
  | noSymbol : NavNotice
  | notFound : String → NavNotice
deriving DecidableEq, Repr

/-- `CodeEditor.goto_definition`, given the (already stripped) word under
the cursor: empty word reports "No symbol selected" and stops; otherwise
the first matching line receives the cursor at column 0; if none matches,
a "not found" notice is shown and the state is unchanged. -/
def gotoDefinition (word : String) (st : NavState) : NavState × List NavNotice :=
  if word.isEmpty then (st, [.noSymbol])
  else
    match findDefLine word st.lines with
    | some i => ({ st with cursorLine := i, cursorCol := 0 }, [])
    | none => (st, [.notFound word])

/-- The overlay-related editor state.  Tk windows are modelled by numeric
ids: `live` lists the created-and-not-yet-destroyed overlay windows,
`current` is the `self.autocomplete_window` attribute (it keeps pointing at
a window even after that window is destroyed, mirroring the Python
attribute), `nextId` generates fresh window ids, `items` is the listbox
content of the current overlay. -/
structure OverlayState where
  live : List Nat
  current : Option Nat
  nextId : Nat
  buf : Buf
  items : List String
deriving DecidableEq, Repr

/-- The guard at the top of `_open_autocomplete_window`:
`if hasattr(self, "autocomplete_window") and self.autocomplete_window.winfo_exists():
self.autocomplete_window.destroy()`. -/
def destroyTracked (st : OverlayState) : OverlayState :=
  match st.current with
  | some w => if w ∈ st.live then { st with live := st.live.erase w } else st
  | none => st

/-- `CodeEditor._open_autocomplete_window`: any live tracked overlay is
destroyed first; then, if the cursor bounding box is unavailable the call
returns without creating a window, otherwise a fresh overlay window holding
`matches` becomes the current one. -/
def openOverlay (cands : List String) (bboxOk : Bool) (st : OverlayState) :
    OverlayState :=
  let st1 := destroyTracked st
  if bboxOk then
    { st1 with
      live := st1.nextId :: st1.live
      current := some st1.nextId
      nextId := st1.nextId + 1
      items := cands }
  else st1

/-- The Escape binding: `self.autocomplete_window.destroy()`. -/
def dismissOverlay (st : OverlayState) : OverlayState :=
  match st.current with
  | some w => { st with live := st.live.erase w }
  | none => st

/-- `CodeEditor._insert_autocomplete`: if the listbox has a selection, the
selected value minus the prefix is inserted at the cursor; in every case
the overlay window is destroyed. -/
def confirmOverlay (sel : Option Nat) (pfx : String) (st : OverlayState) :
    OverlayState :=
  let st1 :=
    match sel with
    | some i =>
      { st with
        buf := { pre := st.buf.pre ++ pyDrop (st.items.getD i "") pfx.length
                 post := st.buf.post } }
    | none => st
  dismissOverlay st1

/-- The overlay invariant: live windows are distinct, every live window is
the tracked current one, and the tracked id (if any) was allocated before
`nextId`. -/
def overlayInv (st : OverlayState) : Prop :=
  st.live.Nodup ∧ (∀ w ∈ st.live, st.current = some w) ∧
    (∀ w ∈ st.current, w < st.nextId)

/-- Diagnostics printed to stderr by `_load_extensions`. -/
inductive LoadError where
  | importFailed : String → LoadError
  | registerFailed : String → LoadError
deriving DecidableEq, Repr

/-- The loader-visible editor state: the labels added to the Extensions
menu by `add_extension_command`, the `self.extensions` record, and the
diagnostics printed so far. -/
structure Host where
  commands : List String
  extensions : List String
  errors : List LoadError
deriving DecidableEq, Repr

/-- One candidate extension module.  `importOk` is whether
`importlib.import_module` succeeds; `hasRegister` whether the module has a
`register` attribute; `registerAdds` the command labels `register` adds via
`add_extension_command` before returning or raising; `registerRaises`
whether `register` raises after those additions. -/
structure ExtModule where
  name : String
  importOk : Bool
  hasRegister : Bool
  registerAdds : List String
  registerRaises : Bool
deriving DecidableEq, Repr

/-- The body of the `_load_extensions` loop for one module: a failed import
is reported and skipped; a module without `register` is ignored; otherwise
`register(self)` runs (its menu additions take effect even if it then
raises), and only when it returns normally is the module appended to
`self.extensions` — a raise is caught and reported instead. -/
def loadOne (h : Host) (m : ExtModule) : Host :=
  if !m.importOk then { h with errors := h.errors ++ [.importFailed m.name] }
  else if m.hasRegister then
    let h1 := { h with commands := h.commands ++ m.registerAdds }
    if m.registerRaises then
      { h1 with errors := h1.errors ++ [.registerFailed m.name] }
    else { h1 with extensions := h1.extensions ++ [m.name] }
  else h

/-- `CodeEditor._load_extensions` over the discovered module files, in
directory-listing order.  The function is total: no exception escapes the
loop and the editor process continues. -/
def loadExtensions (mods : List ExtModule) (h : Host) : Host :=
  mods.foldl loadOne h

/-! ### Order and sorting lemmas -/

theorem lexLe_total : ∀ a b : List Char, lexLe a b = true ∨ lexLe b a = true
  | [], _ => Or.inl rfl
  | _ :: _, [] => Or.inr rfl
  | a :: as, b :: bs => by
    by_cases h1 : a.toNat < b.toNat
    · left; simp [lexLe, h1]
    · by_cases h2 : b.toNat < a.toNat
      · right; simp [lexLe, h2]
      · rcases lexLe_total as bs with h | h
        · left; simp [lexLe, h1, h2, h]
        · right; simp [lexLe, h1, h2, h]

theorem lexLe_trans : ∀ a b c : List Char,
    lexLe a b = true → lexLe b c = true → lexLe a c = true
  | [], _, _, _, _ => rfl
  | _ :: _, [], _, h1, _ => by simp [lexLe] at h1
  | _ :: _, _ :: _, [], _, h2 => by simp [lexLe] at h2
  | a :: as, b :: bs, c :: cs, h1, h2 => by
    simp only [lexLe] at h1 h2 ⊢
    split_ifs at h1 h2 ⊢
    all_goals first
      | rfl
      | exact Bool.noConfusion h1
      | exact Bool.noConfusion h2
      | (exfalso; omega)
      | exact lexLe_trans as bs cs h1 h2

theorem strLe_total (a b : String) : strLe a b = true ∨ strLe b a = true :=
  lexLe_total a.toList b.toList

theorem strLe_trans (a b c : String) :
    strLe a b = true → strLe b c = true → strLe a c = true :=
  lexLe_trans a.toList b.toList c.toList

theorem perm_insertSorted (s : String) :
    ∀ l : List String, List.Perm (insertSorted s l) (s :: l)
  | [] => .refl _
  | t :: ts => by
    unfold insertSorted
    by_cases h : strLe s t
    · simp [h]
    · simp only [h, if_false]
      exact ((perm_insertSorted s ts).cons t).trans (List.Perm.swap s t ts)

theorem perm_sortStrings : ∀ l : List String, List.Perm (sortStrings l) l
  | [] => .refl _
  | s :: ss =>
    (perm_insertSorted s (sortStrings ss)).trans ((perm_sortStrings ss).cons s)

theorem sorted_insertSorted (s : String) :
    ∀ l : List String, List.Pairwise (fun a b => strLe a b = true) l →
      List.Pairwise (fun a b => strLe a b = true) (insertSorted s l)
  | [], _ => by simp [insertSorted]
  | t :: ts, h => by
    rcases List.pairwise_cons.mp h with ⟨hrel, hts⟩
    unfold insertSorted
    by_cases hst : strLe s t
    · simp only [hst, if_true]
      refine List.pairwise_cons.mpr ⟨?_, h⟩
      intro x hx
      rcases List.mem_cons.mp hx with rfl | hx'
      · exact hst
      · exact strLe_trans s t x hst (hrel x hx')
    · simp only [hst, if_false]
      refine List.pairwise_cons.mpr ⟨?_, sorted_insertSorted s ts hts⟩
      intro x hx
      have hmem : x = s ∨ x ∈ ts := by
        simpa using (perm_insertSorted s ts).mem_iff.mp hx
      rcases hmem with rfl | hx'
      · rcases strLe_total x t with hh | hh
        · exact absurd hh hst
        · exact hh
      · exact hrel x hx'

theorem sorted_sortStrings :
    ∀ l : List String, List.Pairwise (fun a b => strLe a b = true) (sortStrings l)
  | [] => .nil
  | s :: ss => sorted_insertSorted s _ (sorted_sortStrings ss)

/-! ### CandidateSet lemmas -/

theorem mem_localCandidates (kw : List String) (buf pfx s : String) :
    s ∈ localCandidates kw buf pfx ↔
      (s ∈ kw ∨ s ∈ findWords buf) ∧ pyStartswith pfx s = true ∧ s ≠ pfx := by
  unfold localCandidates
  rw [(perm_sortStrings _).mem_iff]
  simp [List.mem_filter, List.mem_dedup, List.mem_append, Bool.and_eq_true,
    bne_iff_ne]

theorem nodup_localCandidates (kw : List String) (buf pfx : String) :
    (localCandidates kw buf pfx).Nodup := by
  unfold localCandidates
  exact (perm_sortStrings _).nodup_iff.mpr ((List.nodup_dedup _).filter _)

theorem candidateSet_eq_local (kw : List String) (buf : String)
    (remote : List String) (pfx : String) (h : filteredRemote pfx remote = []) :
    candidateSet kw buf remote pfx = localCandidates kw buf pfx := by
  simp [candidateSet, h]

theorem candidateSet_eq_remote (kw : List String) (buf : String)
    (remote : List String) (pfx : String) (h : filteredRemote pfx remote ≠ []) :
    candidateSet kw buf remote pfx = filteredRemote pfx remote := by
  unfold candidateSet
  rw [if_neg]
  simpa [List.isEmpty_iff] using h

/-! ### Claims -/

/-- C1 (counterexample): for the non-empty prefix `"foo"`, when the remote
source returns exactly `["foo"]` the CandidateSet is `["foo"]`, which
contains a string equal to the prefix itself — the remote branch filters
only on `startswith` and does not exclude equality, so the claim that no
candidate ever equals the prefix is false. -/
theorem candidateSet_prefix_equal_cex :
    candidateSet [] "" ["foo"] "foo" = ["foo"] ∧
    ¬ (∀ s ∈ candidateSet [] "" ["foo"] "foo", s ≠ "foo") := by
  refine ⟨by decide, fun h => h "foo" (by decide) rfl⟩

/-- C1 (amended): for every non-empty prefix, every string in the
CandidateSet starts with the prefix; candidates are guaranteed different
from the prefix only on the local-fallback path (when the filtered remote
set is empty) — a remote candidate equal to the prefix is retained. -/
theorem candidateSet_extends_prefix (kw : List String) (buf : String)
    (remote : List String) (pfx : String) (hp : pfx ≠ "") :
    (∀ s ∈ candidateSet kw buf remote pfx, pyStartswith pfx s = true) ∧
    (filteredRemote pfx remote = [] →
      ∀ s ∈ candidateSet kw buf remote pfx, s ≠ pfx) := by
  constructor
  · intro s hs
    by_cases h : filteredRemote pfx remote = []
    · rw [candidateSet_eq_local kw buf remote pfx h] at hs
      exact ((mem_localCandidates kw buf pfx s).mp hs).2.1
    · rw [candidateSet_eq_remote kw buf remote pfx h] at hs
      exact (List.mem_filter.mp hs).2
  · intro h s hs
    rw [candidateSet_eq_local kw buf remote pfx h] at hs
    exact ((mem_localCandidates kw buf pfx s).mp hs).2.2

/-- Witness for the amended C1 at a concrete input. -/
theorem candidateSet_extends_prefix_witness :
    "fo" ≠ "" ∧
    ((∀ s ∈ candidateSet pythonKwlist "food fox" [] "fo", pyStartswith "fo" s = true) ∧
     (filteredRemote "fo" [] = [] →
       ∀ s ∈ candidateSet pythonKwlist "food fox" [] "fo", s ≠ "fo")) :=
  ⟨by decide, candidateSet_extends_prefix pythonKwlist "food fox" [] "fo" (by decide)⟩

/-- C3: for every non-empty prefix, if the remote source returns at least
one suggestion passing the prefix filter applied to remote candidates
(`startswith`), the CandidateSet is exactly that filtered remote list and
every candidate comes from the remote list — the local vocabulary is not
consulted. -/
theorem candidateSet_remote_precedence (kw : List String) (buf : String)
    (remote : List String) (pfx : String) (hp : pfx ≠ "")
    (hr : filteredRemote pfx remote ≠ []) :
    candidateSet kw buf remote pfx = filteredRemote pfx remote ∧
    ∀ s ∈ candidateSet kw buf remote pfx, s ∈ remote := by
  refine ⟨candidateSet_eq_remote kw buf remote pfx hr, ?_⟩
  intro s hs
  rw [candidateSet_eq_remote kw buf remote pfx hr] at hs
  exact (List.mem_filter.mp hs).1

/-- Witness for C3: the spec's own example — remote
`["foobar", "foobaz", "qux"]` with prefix `"foo"`, and a buffer whose word
`foox` would be a local candidate, yields exactly the filtered remote set. -/
theorem candidateSet_remote_precedence_witness :
    ("foo" ≠ "" ∧ filteredRemote "foo" ["foobar", "foobaz", "qux"] ≠ [] ∧
      candidateSet pythonKwlist "foox" ["foobar", "foobaz", "qux"] "foo" =
        ["foobar", "foobaz"]) ∧
    (candidateSet pythonKwlist "foox" ["foobar", "foobaz", "qux"] "foo" =
        filteredRemote "foo" ["foobar", "foobaz", "qux"] ∧
     ∀ s ∈ candidateSet pythonKwlist "foox" ["foobar", "foobaz", "qux"] "foo",
       s ∈ ["foobar", "foobaz", "qux"]) :=
  ⟨⟨by decide, by decide, by decide⟩,
    candidateSet_remote_precedence pythonKwlist "foox" ["foobar", "foobaz", "qux"]
      "foo" (by decide) (by decide)⟩

/-- C4 (counterexample): when the remote source returns the same matching
suggestion twice, the CandidateSet keeps both copies — the remote path
performs no deduplication, so the claim that every CandidateSet is
duplicate-free is false. -/
theorem candidateSet_duplicates_cex :
    candidateSet [] "" ["foobar", "foobar"] "foo" = ["foobar", "foobar"] ∧
    ¬ (candidateSet [] "" ["foobar", "foobar"] "foo").Nodup :=
  ⟨by decide, by decide⟩

/-- C4 (amended): set semantics (no duplicates) holds only on the
local-fallback path: when the filtered remote set is empty the CandidateSet
is the duplicate-free local set; on the remote path the filtered remote
list is used verbatim, duplicates included. -/
theorem candidateSet_local_nodup (kw : List String) (buf : String)
    (remote : List String) (pfx : String) (h : filteredRemote pfx remote = []) :
    (candidateSet kw buf remote pfx).Nodup ∧
    candidateSet kw buf remote pfx = localCandidates kw buf pfx := by
  refine ⟨?_, candidateSet_eq_local kw buf remote pfx h⟩
  rw [candidateSet_eq_local kw buf remote pfx h]
  exact nodup_localCandidates kw buf pfx

/-- Witness for the amended C4 at a concrete input (the buffer mentions
`food` twice and `food` is still listed once). -/
theorem candidateSet_local_nodup_witness :
    (filteredRemote "foo" [] = [] ∧
      candidateSet [] "food bar food" [] "foo" = ["food"]) ∧
    ((candidateSet [] "food bar food" [] "foo").Nodup ∧
      candidateSet [] "food bar food" [] "foo" = localCandidates [] "food bar food" "foo") :=
  ⟨⟨by decide, by decide⟩,
    candidateSet_local_nodup [] "food bar food" [] "foo" (by decide)⟩

/-- C5: whenever the filtered remote set is empty, the CandidateSet is
exactly the filtered local vocabulary — a string is a candidate iff it is a
reserved word or a word token of the buffer, starts with the prefix and
differs from it — without duplicates and sorted lexicographically ascending
by code point (`strLe`). -/
theorem candidateSet_local_fallback (kw : List String) (buf : String)
    (remote : List String) (pfx : String) (hp : pfx ≠ "")
    (h : filteredRemote pfx remote = []) :
    (∀ s, s ∈ candidateSet kw buf remote pfx ↔
        (s ∈ kw ∨ s ∈ findWords buf) ∧ pyStartswith pfx s = true ∧ s ≠ pfx) ∧
    List.Pairwise (fun a b => strLe a b = true) (candidateSet kw buf remote pfx) ∧
    (candidateSet kw buf remote pfx).Nodup := by
  rw [candidateSet_eq_local kw buf remote pfx h]
  exact ⟨fun s => mem_localCandidates kw buf pfx s, sorted_sortStrings _,
    nodup_localCandidates kw buf pfx⟩

/-- Witness for C5: the spec's example — buffer containing `foo`, `food`,
`foobar` and prefix `"foo"` gives `["foobar", "food"]` in ascending
code-point order. -/
theorem candidateSet_local_fallback_witness :
    ("foo" ≠ "" ∧ filteredRemote "foo" [] = [] ∧
      candidateSet pythonKwlist "foo food foobar" [] "foo" = ["foobar", "food"]) ∧
    ((∀ s, s ∈ candidateSet pythonKwlist "foo food foobar" [] "foo" ↔
        (s ∈ pythonKwlist ∨ s ∈ findWords "foo food foobar") ∧
          pyStartswith "foo" s = true ∧ s ≠ "foo") ∧
     List.Pairwise (fun a b => strLe a b = true)
        (candidateSet pythonKwlist "foo food foobar" [] "foo") ∧
     (candidateSet pythonKwlist "foo food foobar" [] "foo").Nodup) :=
  ⟨⟨by decide, by decide, by decide⟩,
    candidateSet_local_fallback pythonKwlist "foo food foobar" [] "foo"
      (by decide) (by decide)⟩

/-- C6: for every completion request with a non-blank prefix whose
CandidateSet is a singleton `[c]`, `show_autocomplete` inserts exactly the
suffix of `c` (the candidate with the prefix stripped) at the cursor and
creates no overlay: the buffer becomes `pre ++ suffix` / `post` and the
overlay flag stays false. -/
theorem singleton_candidate_inserts_suffix (kw : List String) (buf : String)
    (remote : List String) (pfx c : String) (b : Buf)
    (hb : isBlank pfx = false) (hc : candidateSet kw buf remote pfx = [c]) :
    showAutocomplete kw buf remote pfx = AcOutcome.insertText (pyDrop c pfx.length) ∧
    applyOutcome b (showAutocomplete kw buf remote pfx) =
      ({ pre := b.pre ++ pyDrop c pfx.length, post := b.post }, false) := by
  have h1 : showAutocomplete kw buf remote pfx =
      AcOutcome.insertText (pyDrop c pfx.length) := by
    unfold showAutocomplete
    rw [hb, hc]
    simp
  exact ⟨h1, by rw [h1]; rfl⟩

/-- Witness for C6: the spec's example — singleton CandidateSet `["bar"]`
for prefix `"ba"` makes the buffer gain exactly `"r"` with no overlay. -/
theorem singleton_candidate_inserts_suffix_witness :
    (isBlank "ba" = false ∧ candidateSet [] "bar" [] "ba" = ["bar"] ∧
      pyDrop "bar" "ba".length = "r") ∧
    (showAutocomplete [] "bar" [] "ba" = AcOutcome.insertText (pyDrop "bar" "ba".length) ∧
     applyOutcome ⟨"qu", "x"⟩ (showAutocomplete [] "bar" [] "ba") =
       ({ pre := "qu" ++ pyDrop "bar" "ba".length, post := "x" }, false)) :=
  ⟨⟨by decide, by decide, by decide⟩,
    singleton_candidate_inserts_suffix [] "bar" [] "ba" "bar" ⟨"qu", "x"⟩
      (by decide) (by decide)⟩

/-- C7: for every buffer and non-empty cursor word, when `goto_definition`
finds a definition it jumps to line `i` (1-based, cursor at column 0) such
that line `i` matches the definition pattern and no earlier line does —
the scan is first-to-last, lowest line number wins; on the claim's buffer
`["def foo():", "    pass", "def foo(): pass"]` with word `"foo"` the
result is line 1, not line 3. -/
theorem goto_definition_first_match (st : NavState) (word : String) (i : Nat)
    (hw : word.isEmpty = false) (h : findDefLine word st.lines = some i) :
    gotoDefinition word st = ({ st with cursorLine := i, cursorCol := 0 }, []) ∧
    1 ≤ i ∧
    (∃ l, st.lines[i - 1]? = some l ∧ defLineMatches word l = true) ∧
    (∀ j l, j + 1 < i → st.lines[j]? = some l → defLineMatches word l = false) ∧
    findDefLine "foo" ["def foo():", "    pass", "def foo(): pass"] = some 1 := by
  obtain ⟨i0, hfi, rfl⟩ :
      ∃ i0, st.lines.findIdx? (fun l => defLineMatches word l) = some i0 ∧
        i = i0 + 1 := by
    unfold findDefLine at h
    cases hfi : st.lines.findIdx? (fun l => defLineMatches word l) with
    | none => rw [hfi] at h; simp at h
    | some k =>
      rw [hfi] at h
      simp only [Option.map_some', Option.some.injEq] at h
      exact ⟨k, rfl, h.symm⟩
  rw [List.findIdx?_eq_some_iff_getElem] at hfi
  obtain ⟨hlen, hp, hprev⟩ := hfi
  refine ⟨?_, Nat.le_add_left 1 i0, ⟨st.lines[i0], ?_, hp⟩, ?_, by decide⟩
  · simp [gotoDefinition, hw, h]
  · have h1 : i0 + 1 - 1 = i0 := by omega
    rw [h1]
    exact List.getElem?_eq_getElem hlen
  · intro j l hj hl
    have hj' : j < i0 := by omega
    obtain ⟨hlt, rfl⟩ := List.getElem?_eq_some.mp hl
    have hnp := hprev j hj'
    exact Bool.eq_false_iff.mpr hnp

/-- Witness for C7 at the claim's concrete buffer and word. -/
theorem goto_definition_first_match_witness :
    ("foo".isEmpty = false ∧
      findDefLine "foo" ["def foo():", "    pass", "def foo(): pass"] = some 1) ∧
    (gotoDefinition "foo" ⟨["def foo():", "    pass", "def foo(): pass"], 3, 5⟩ =
        (⟨["def foo():", "    pass", "def foo(): pass"], 1, 0⟩, []) ∧
     1 ≤ 1 ∧
     (∃ l, (["def foo():", "    pass", "def foo(): pass"] : List String)[1 - 1]? =
        some l ∧ defLineMatches "foo" l = true) ∧
     (∀ j l, j + 1 < 1 →
        (["def foo():", "    pass", "def foo(): pass"] : List String)[j]? = some l →
        defLineMatches "foo" l = false) ∧
     findDefLine "foo" ["def foo():", "    pass", "def foo(): pass"] = some 1) :=
  ⟨⟨by decide, by decide⟩,
    goto_definition_first_match ⟨["def foo():", "    pass", "def foo(): pass"], 3, 5⟩
      "foo" 1 (by decide) (by decide)⟩

/-- C8: when the computed cursor word is empty, `goto_definition` returns
the state unchanged (no buffer mutation, cursor untouched) and emits
exactly one "No symbol selected" notice. -/
theorem goto_definition_empty_word (st : NavState) (word : String)
    (hw : word.isEmpty = true) :
    gotoDefinition word st = (st, [NavNotice.noSymbol]) := by
  simp [gotoDefinition, hw]

/-- Witness for C8 at a concrete state. -/
theorem goto_definition_empty_word_witness :
    "".isEmpty = true ∧
    gotoDefinition "" ⟨["def foo():"], 2, 4⟩ = (⟨["def foo():"], 2, 4⟩, [NavNotice.noSymbol]) :=
  ⟨by decide, goto_definition_empty_word ⟨["def foo():"], 2, 4⟩ "" (by decide)⟩

/-! ### Overlay lifecycle lemmas -/

theorem inv_live_length (st : OverlayState) (h : overlayInv st) :
    st.live.length ≤ 1 := by
  obtain ⟨hnd, hall, -⟩ := h
  cases hl : st.live with
  | nil => simp
  | cons w rest =>
    cases hr : rest with
    | nil => simp
    | cons y rest2 =>
      exfalso
      have hw := hall w (by rw [hl]; exact List.mem_cons_self w rest)
      have hy := hall y (by rw [hl, hr]; exact List.mem_cons_of_mem w (List.mem_cons_self y rest2))
      have hwy : w = y := by
        have := hw.symm.trans hy
        exact Option.some.inj this
      rw [hl, hr, hwy] at hnd
      exact (List.nodup_cons.mp hnd).1 (List.mem_cons_self y rest2)

theorem destroyTracked_live_nil (st : OverlayState) (h : overlayInv st) :
    (destroyTracked st).live = [] := by
  obtain ⟨hnd, hall, -⟩ := h
  unfold destroyTracked
  cases hc : st.current with
  | none =>
    cases hl : st.live with
    | nil => simp [hl]
    | cons w rest =>
      have := hall w (by rw [hl]; exact List.mem_cons_self w rest)
      rw [hc] at this
      exact absurd this (by simp)
  | some w =>
    by_cases hm : w ∈ st.live
    · simp only [hm, if_true]
      cases hl : st.live with
      | nil => simp at hm; exact absurd (hl ▸ hm) (List.not_mem_nil w)
      | cons x rest =>
        cases hr : rest with
        | nil =>
          have hx := hall x (by rw [hl]; exact List.mem_cons_self x rest)
          rw [hc] at hx
          have hwx : w = x := Option.some.inj hx
          simp [hl, hr, hwx]
        | cons y rest2 =>
          exfalso
          have hx := hall x (by rw [hl]; exact List.mem_cons_self x rest)
          have hy := hall y (by rw [hl, hr]; exact List.mem_cons_of_mem x (List.mem_cons_self y rest2))
          have hxy : x = y := Option.some.inj (hx.symm.trans hy)
          rw [hl, hr, hxy] at hnd
          exact (List.nodup_cons.mp hnd).1 (List.mem_cons_self y rest2)
    · simp only [hm, if_false]
      cases hl : st.live with
      | nil => rfl
      | cons x rest =>
        exfalso
        have hx := hall x (by rw [hl]; exact List.mem_cons_self x rest)
        rw [hc] at hx
        exact hm (Option.some.inj hx ▸ (hl ▸ List.mem_cons_self x rest))

theorem destroyTracked_current (st : OverlayState) :
    (destroyTracked st).current = st.current := by
  unfold destroyTracked
  cases hc : st.current with
  | none => exact hc
  | some w =>
    dsimp only
    split
    · rfl
    · exact hc

theorem destroyTracked_nextId (st : OverlayState) :
    (destroyTracked st).nextId = st.nextId := by
  unfold destroyTracked
  cases hc : st.current with
  | none => rfl
  | some w => dsimp only; split <;> rfl

theorem openOverlay_inv (cands : List String) (b : Bool) (st : OverlayState)
    (h : overlayInv st) : overlayInv (openOverlay cands b st) := by
  have hnil := destroyTracked_live_nil st h
  have hcur := destroyTracked_current st
  have hnid := destroyTracked_nextId st
  unfold openOverlay
  dsimp only
  cases b with
  | false =>
    simp only [Bool.false_eq_true, if_false]
    refine ⟨?_, ?_, ?_⟩
    · rw [hnil]; exact List.nodup_nil
    · intro w hw; rw [hnil] at hw; exact absurd hw (List.not_mem_nil w)
    · intro w hw
      rw [hcur] at hw
      rw [hnid]
      exact h.2.2 w hw
  | true =>
    simp only [if_true]
    refine ⟨?_, ?_, ?_⟩
    · rw [hnil]
      exact List.nodup_cons.mpr ⟨List.not_mem_nil _, List.nodup_nil⟩
    · intro w hw
      rw [hnil] at hw
      have : w = (destroyTracked st).nextId := by simpa using hw
      rw [this]
    · intro w hw
      rw [Option.mem_def] at hw
      have hwn : w = (destroyTracked st).nextId := by
        simpa using (Option.some.inj hw).symm
      show w < (destroyTracked st).nextId + 1
      omega

theorem dismissOverlay_inv (st : OverlayState) (h : overlayInv st) :
    overlayInv (dismissOverlay st) := by
  obtain ⟨hnd, hall, hnext⟩ := h
  unfold dismissOverlay
  cases hc : st.current with
  | none => exact ⟨hnd, fun w hw => hall w hw, fun w hw => hnext w hw⟩
  | some w0 =>
    dsimp only
    refine ⟨hnd.erase w0, ?_, ?_⟩
    · intro w hw
      have h1 := hall w (List.mem_of_mem_erase hw)
      rw [hc] at h1
      exact h1
    · intro w hw
      have h1 : w ∈ st.current := by rw [hc]; exact hw
      exact hnext w h1

theorem confirmOverlay_inv (sel : Option Nat) (p : String) (st : OverlayState)
    (h : overlayInv st) : overlayInv (confirmOverlay sel p st) := by
  unfold confirmOverlay
  cases sel with
  | none => exact dismissOverlay_inv st h
  | some i =>
    dsimp only
    exact dismissOverlay_inv _ ⟨h.1, h.2.1, h.2.2⟩

theorem openOverlay_destroys_old (cands : List String) (b : Bool)
    (st : OverlayState) (h : overlayInv st) :
    ∀ w ∈ st.current, w ∉ (openOverlay cands b st).live := by
  intro w hw
  have hnil := destroyTracked_live_nil st h
  have hnid := destroyTracked_nextId st
  have hlt : w < st.nextId := h.2.2 w hw
  unfold openOverlay
  dsimp only
  cases b with
  | false => simp [hnil]
  | true =>
    simp only [if_true]
    rw [hnil, hnid]
    intro hmem
    have : w = st.nextId := by simpa using hmem
    omega

/-- C9: under the overlay invariant there is at most one live overlay
window; opening a new overlay destroys any window tracked as current (the
old window is never live afterwards), and the invariant is preserved by
every overlay operation — open (with or without a usable bounding box),
dismissal via Escape, and confirmation with or without a selection. -/
theorem overlay_single_instance (st : OverlayState) (cands : List String)
    (b : Bool) (sel : Option Nat) (p : String) (hinv : overlayInv st) :
    st.live.length ≤ 1 ∧
    (∀ w ∈ st.current, w ∉ (openOverlay cands b st).live) ∧
    overlayInv (openOverlay cands b st) ∧
    overlayInv (dismissOverlay st) ∧
    overlayInv (confirmOverlay sel p st) :=
  ⟨inv_live_length st hinv, openOverlay_destroys_old cands b st hinv,
   openOverlay_inv cands b st hinv, dismissOverlay_inv st hinv,
   confirmOverlay_inv sel p st hinv⟩

/-- Witness for C9 at a concrete overlay state with one live window. -/
theorem overlay_single_instance_witness :
    overlayInv ⟨[5], some 5, 6, ⟨"ab", "cd"⟩, ["x", "y"]⟩ ∧
    ((⟨[5], some 5, 6, ⟨"ab", "cd"⟩, ["x", "y"]⟩ : OverlayState).live.length ≤ 1 ∧
     (∀ w ∈ (⟨[5], some 5, 6, ⟨"ab", "cd"⟩, ["x", "y"]⟩ : OverlayState).current,
        w ∉ (openOverlay ["p", "q"] true ⟨[5], some 5, 6, ⟨"ab", "cd"⟩, ["x", "y"]⟩).live) ∧
     overlayInv (openOverlay ["p", "q"] true ⟨[5], some 5, 6, ⟨"ab", "cd"⟩, ["x", "y"]⟩) ∧
     overlayInv (dismissOverlay ⟨[5], some 5, 6, ⟨"ab", "cd"⟩, ["x", "y"]⟩) ∧
     overlayInv (confirmOverlay (some 0) "p" ⟨[5], some 5, 6, ⟨"ab", "cd"⟩, ["x", "y"]⟩)) := by
  have h0 : overlayInv ⟨[5], some 5, 6, ⟨"ab", "cd"⟩, ["x", "y"]⟩ := by
    refine ⟨by decide, by decide, ?_⟩
    intro w hw
    have h5 : (some 5 : Option Nat) = some w := hw
    injection h5 with h5
    show w < 6
    omega
  exact ⟨h0, overlay_single_instance ⟨[5], some 5, 6, ⟨"ab", "cd"⟩, ["x", "y"]⟩
    ["p", "q"] true (some 0) "p" h0⟩

/-- C10: confirming the overlay with no list item selected leaves the
buffer text completely unchanged (no suffix is inserted) while the current
overlay window is still destroyed (not live afterwards). -/
theorem confirm_without_selection (st : OverlayState) (p : String)
    (hinv : overlayInv st) :
    (confirmOverlay none p st).buf = st.buf ∧
    (∀ w ∈ st.current, w ∉ (confirmOverlay none p st).live) := by
  constructor
  · unfold confirmOverlay dismissOverlay
    dsimp only
    cases hc : st.current with
    | none => rfl
    | some w0 => rfl
  · intro w hw
    rw [Option.mem_def] at hw
    unfold confirmOverlay dismissOverlay
    dsimp only
    rw [hw]
    exact hinv.1.not_mem_erase

/-- Witness for C10 at a concrete overlay state. -/
theorem confirm_without_selection_witness :
    overlayInv ⟨[7], some 7, 8, ⟨"pre", "post"⟩, ["alpha", "beta"]⟩ ∧
    ((confirmOverlay none "al" ⟨[7], some 7, 8, ⟨"pre", "post"⟩, ["alpha", "beta"]⟩).buf =
        (⟨[7], some 7, 8, ⟨"pre", "post"⟩, ["alpha", "beta"]⟩ : OverlayState).buf ∧
     (∀ w ∈ (⟨[7], some 7, 8, ⟨"pre", "post"⟩, ["alpha", "beta"]⟩ : OverlayState).current,
        w ∉ (confirmOverlay none "al" ⟨[7], some 7, 8, ⟨"pre", "post"⟩, ["alpha", "beta"]⟩).live)) := by
  have h0 : overlayInv ⟨[7], some 7, 8, ⟨"pre", "post"⟩, ["alpha", "beta"]⟩ := by
    refine ⟨by decide, by decide, ?_⟩
    intro w hw
    have h7 : (some 7 : Option Nat) = some w := hw
    injection h7 with h7
    show w < 8
    omega
  exact ⟨h0, confirm_without_selection ⟨[7], some 7, 8, ⟨"pre", "post"⟩, ["alpha", "beta"]⟩
    "al" h0⟩

/-- C2 (counterexample): a directory with one well-formed extension
(`word_count`, registering "Word Count") and one whose `register` raises
(`broken`): `self.extensions` records only `word_count` — the module whose
registration failed is *not* recorded as imported, because the append to
`self.extensions` sits after `module.register(self)` inside the `try`
block, so the claim that both modules appear in the loader's record is
false. -/
theorem load_extensions_record_cex :
    "broken" ∉ (loadExtensions
        [⟨"word_count", true, true, ["Word Count"], false⟩,
         ⟨"broken", true, true, [], true⟩] ⟨[], [], []⟩).extensions ∧
    (loadExtensions
        [⟨"word_count", true, true, ["Word Count"], false⟩,
         ⟨"broken", true, true, [], true⟩] ⟨[], [], []⟩).extensions = ["word_count"] :=
  ⟨by decide, by decide⟩

/-- C2 (amended): processing one well-formed extension and one whose
`register` raises (adding nothing): the loader completes as a total
function (the exception is caught, not propagated), only the well-formed
module is recorded in `self.extensions`, only its command is added to the
Extensions menu, and the failing module is reported in a diagnostic. -/
theorem load_extensions_partial_failure (g b : ExtModule) (h : Host)
    (hg1 : g.importOk = true) (hg2 : g.hasRegister = true)
    (hg3 : g.registerRaises = false) (hb1 : b.importOk = true)
    (hb2 : b.hasRegister = true) (hb3 : b.registerRaises = true)
    (hb4 : b.registerAdds = []) :
    (loadExtensions [g, b] h).extensions = h.extensions ++ [g.name] ∧
    (loadExtensions [g, b] h).commands = h.commands ++ g.registerAdds ∧
    (loadExtensions [g, b] h).errors = h.errors ++ [LoadError.registerFailed b.name] := by
  simp [loadExtensions, loadOne, hg1, hg2, hg3, hb1, hb2, hb3, hb4]

/-- Witness for the amended C2 at concrete modules. -/
theorem load_extensions_partial_failure_witness :
    ((⟨"word_count", true, true, ["Word Count"], false⟩ : ExtModule).importOk = true ∧
      (⟨"broken", true, true, [], true⟩ : ExtModule).registerRaises = true) ∧
    ((loadExtensions [⟨"word_count", true, true, ["Word Count"], false⟩,
        ⟨"broken", true, true, [], true⟩] ⟨[], [], []⟩).extensions =
        ([] : List String) ++ ["word_count"] ∧
     (loadExtensions [⟨"word_count", true, true, ["Word Count"], false⟩,
        ⟨"broken", true, true, [], true⟩] ⟨[], [], []⟩).commands =
        ([] : List String) ++ ["Word Count"] ∧
     (loadExtensions [⟨"word_count", true, true, ["Word Count"], false⟩,
        ⟨"broken", true, true, [], true⟩] ⟨[], [], []⟩).errors =
        ([] : List LoadError) ++ [LoadError.registerFailed "broken"]) :=
  ⟨⟨rfl, rfl⟩,
    load_extensions_partial_failure
      ⟨"word_count", true, true, ["Word Count"], false⟩
      ⟨"broken", true, true, [], true⟩ ⟨[], [], []⟩
      rfl rfl rfl rfl rfl rfl rfl⟩

end NovaAtom
